import Mathlib

/-!
Shallow embedding of the fallback `PythonToJavaScriptTranspiler.transpile`
method of `src/main.py` (the transpiler class installed when the external
`transpiler` package cannot be imported), together with proofs checking the
specification's claims against it.  Strings are modelled as `List Char`
(`String.data`); Python's `str.strip`, `str.split('\n')`, `str.split('=', 1)`,
`str.startswith`, substring containment (`in`) and the single regular
expression `def\s+(\w+)\s*\(([^)]*)\)\s*:` used by the method are embedded as
executable functions below.  The character classes (`\s`, `\w`) and
`str.strip`'s whitespace set are modelled over their ASCII meaning.
-/

/-- The ASCII whitespace characters recognised by Python's `str.strip()` and
by the regex class `\s`. -/
def isPySpace (c : Char) : Bool :=
  c == ' ' || c == '\t' || c == '\n' || c == '\r' || c == '\x0b' || c == '\x0c'

/-- The ASCII word characters of the regex class `\w`. -/
def isWordCh (c : Char) : Bool :=
  c.isAlphanum || c == '_'

/-- Python `str.startswith` on character lists. -/
def hasPrefixL : List Char → List Char → Bool
  | [], _ => true
  | _ :: _, [] => false
  | p :: ps, c :: cs => if p = c then hasPrefixL ps cs else false

/-- Python's `ch in line` single-character containment test. -/
def hasChar (x : Char) : List Char → Bool
  | [] => false
  | c :: cs => if c = x then true else hasChar x cs

/-- Python's `'+=' in line` two-character substring containment test. -/
def hasPlusEq : List Char → Bool
  | '+' :: '=' :: _ => true
  | _ :: rest => hasPlusEq rest
  | [] => false

/-- Python `str.strip()`: drop leading and trailing whitespace. -/
def stripChars (cs : List Char) : List Char :=
  ((cs.dropWhile isPySpace).reverse.dropWhile isPySpace).reverse

/-- Apply a function to the first element of a list of lines, if any. -/
def mHead (f : List Char → List Char) : List (List Char) → List (List Char)
  | [] => []
  | l :: ls => f l :: ls

/-- Apply a function to the last element of a list of lines, if any. -/
def mLast (f : List Char → List Char) : List (List Char) → List (List Char)
  | [] => []
  | [l] => [f l]
  | l :: ls => l :: mLast f ls

/-- Python `str.split('\n')`: split into lines (empty string gives one empty
line, a trailing newline gives a trailing empty line). -/
def splitNl : List Char → List (List Char)
  | [] => [[]]
  | c :: cs =>
    if c = '\n' then [] :: splitNl cs
    else mHead (fun l => c :: l) (splitNl cs)

/-- Python `'\n'.join(lines)`. -/
def joinNl : List (List Char) → List Char
  | [] => []
  | [l] => l
  | l :: ls => l ++ '\n' :: joinNl ls

/-- Concatenation of the output lines produced for each input line (the
`for line in lines` loop appending to `js_lines`). -/
def catMap (f : List Char → List (List Char)) : List (List Char) → List (List Char)
  | [] => []
  | l :: ls => f l ++ catMap f ls

/-- The regular expression match
`re.match(r'def\s+(\w+)\s*\(([^)]*)\)\s*:', line)` of `src/main.py`,
returning the two captured groups (function name, parameter text) on
success.  Maximal-munch on each `\s+`, `\w+`, `\s*`, `[^)]*` piece is
equivalent to the backtracking semantics here because no character can
belong to two adjacent pieces.  `re.match` anchors only at the start, so
trailing text after the colon is allowed. -/
def matchDef (line : List Char) : Option (List Char × List Char) :=
  match line with
  | 'd' :: 'e' :: 'f' :: rest =>
    if (rest.takeWhile isPySpace).isEmpty then none
    else
      let r1 := rest.dropWhile isPySpace
      let fname := r1.takeWhile isWordCh
      if fname.isEmpty then none
      else
        match (r1.dropWhile isWordCh).dropWhile isPySpace with
        | '(' :: r4 =>
          let params := r4.takeWhile (fun c => c != ')')
          match r4.dropWhile (fun c => c != ')') with
          | ')' :: r5 =>
            match r5.dropWhile isPySpace with
            | ':' :: _ => some (fname, params)
            | _ => none
          | _ => none
        | _ => none
  | _ => none

/-- The body of the `for line in lines` loop of
`PythonToJavaScriptTranspiler.transpile` (src/main.py lines 30-71): the
output lines appended to `js_lines` for one already-stripped input line.
The `if`/`elif` chain is reproduced branch for branch, in source order. -/
def processLine (line : List Char) : List (List Char) :=
  if hasPrefixL "def ".data line then
    match matchDef line with
    | some (fname, params) =>
      ["function ".data ++ fname ++ "(".data ++ params ++ ") \x7b".data]
    | none => []
  else if hasPrefixL "return ".data line then
    ["    return ".data ++ line.drop 7 ++ ";".data]
  else if hasPrefixL "print(".data line then
    ["console.log(".data ++ (line.drop 6).dropLast ++ ");".data]
  else if hasChar '=' line && !hasPrefixL "if".data line && !hasPrefixL "while".data line then
    if hasPlusEq line then
      [line ++ ";".data]
    else
      ["let ".data ++ stripChars (line.takeWhile (fun c => c != '=')) ++
        " = ".data ++ stripChars ((line.dropWhile (fun c => c != '=')).tail) ++ ";".data]
  else if hasPrefixL "if ".data line then
    ["if (".data ++ (line.drop 3).dropLast ++ ") \x7b".data]
  else if line = "else:".data then
    ["\x7d else \x7b".data]
  else if hasPrefixL "for ".data line then
    ["// ".data ++ line]
  else if hasPrefixL "while ".data line then
    ["while (".data ++ (line.drop 6).dropLast ++ ") \x7b".data]
  else if !line.isEmpty && !hasPrefixL "#".data line then
    [line ++ ";".data]
  else if hasPrefixL "#".data line then
    ["// ".data ++ line.drop 1]
  else []

/-- The concatenated output lines of the loop: each raw line is stripped
(`line = line.strip()`) before classification. -/
def bodyList (cs : List Char) : List (List Char) :=
  catMap (fun l => processLine (stripChars l)) (splitNl (stripChars cs))

/-- The whole `transpile` method on character lists: header comment, blank
line, the per-line output, an unconditional closing brace, joined by
newlines (src/main.py lines 22-76). -/
def transpileCore (cs : List Char) : List Char :=
  joinNl ("// Generated JavaScript".data :: [] :: (bodyList cs ++ [['\x7d']]))

/-- The public entry point `transpile(source) -> text`. -/
def transpile (s : String) : String :=
  (transpileCore s.data).asString

/-- The (field-less) transpiler object: the mock class declares no instance
attributes, and its `transpile` method reads and writes none. -/
structure PythonToJavaScriptTranspiler

/-- A call of the `transpile` method on a transpiler object, with the
object's (empty) state threaded explicitly: the method returns its result
and leaves the object unchanged. -/
def transpileMethod (self : PythonToJavaScriptTranspiler) (code : String) :
    String × PythonToJavaScriptTranspiler :=
  (transpile code, self)

/-- C1: for the input `def add(a, b):\n    return a + b`, transpile succeeds
and its output is (after the fixed header comment) exactly a function
declaration named `add` with parameter list `a, b` whose body consists of
the single statement `return a + b;` and nothing else. -/
theorem C1_def_add_function_decl :
    transpile "def add(a, b):\n    return a + b" =
      "// Generated JavaScript\n\nfunction add(a, b) \x7b\n    return a + b;\n\x7d" := by
  decide

/-- C2 (code bug): for the input `import os` — an import statement, outside
the supported grammar of §4 — transpile does not fail with a `ParseError` or
`CodeGenError`; it silently returns translated output (the line is passed
through as `import os;` by the catch-all branch of the classifier). -/
theorem C2_import_not_rejected :
    transpile "import os" = "// Generated JavaScript\n\nimport os;\n\x7d" := by
  decide

/-- C3 (code bug): for the input `x = "abc` (an unterminated string
literal), transpile does not fail with a `LexError`; the line hits the
assignment branch and translated text `let x = "abc;` is returned. -/
theorem C3_unterminated_string_not_lexerror :
    transpile "x = \"abc" = "// Generated JavaScript\n\nlet x = \"abc;\n\x7d" := by
  decide

/-- C4 (code bug): for the input `for i in range(3):\n    print(i)`,
transpile emits no counting loop at all: the `for` header becomes the
comment line `// for i in range(3):` and the print becomes a single
unguarded `console.log(i);`. -/
theorem C4_for_range_emitted_as_comment :
    transpile "for i in range(3):\n    print(i)" =
      "// Generated JavaScript\n\n// for i in range(3):\nconsole.log(i);\n\x7d" := by
  decide

/-- C5 (code bug): for the input `print("hi")`, the output does call
`console.log` with the string argument `"hi"`, but the unconditionally
appended closing brace leaves the whole output with one `\x7d` and no `\x7b`,
so the output is not syntactically valid JavaScript. -/
theorem C5_print_hi_output_with_unmatched_brace :
    transpile "print(\"hi\")" = "// Generated JavaScript\n\nconsole.log(\"hi\");\n\x7d" ∧
      (transpile "print(\"hi\")").data.count '\x7b' = 0 ∧
      (transpile "print(\"hi\")").data.count '\x7d' = 1 := by
  refine ⟨by decide, by decide, by decide⟩

/-- C6: transpile is deterministic and retains no state across calls: a
method call on a transpiler object returns the pure function of the input
and leaves the object unchanged, so two successive calls on the same object
with the same input yield byte-identical results.  (The embedded method is a
pure function because the Python method reads no attribute, no global and no
clock; `PythonToJavaScriptTranspiler` has no fields to mutate.) -/
theorem C6_transpile_deterministic :
    ∀ (st : PythonToJavaScriptTranspiler) (s : String),
      (transpileMethod st s).1 = (transpileMethod (transpileMethod st s).2 s).1 ∧
      (transpileMethod st s).2 = st :=
  fun _ _ => ⟨rfl, rfl⟩

/-- C7 counterexample: a line consisting only of a comment is not discarded:
with the comment line `# hello` the output differs from the output for the
empty input, so the comment line does contribute text to the translation
(namely the line `//  hello`). -/
theorem C7_counterexample_comment_line_emits_text :
    transpile "# hello" ≠ transpile "" := by
  decide

lemma splitNl_ne_nil (cs : List Char) : splitNl cs ≠ [] := by
  induction cs with
  | nil => simp [splitNl]
  | cons c cs ih =>
    simp only [splitNl]
    split
    · simp
    · cases h : splitNl cs with
      | nil => exact absurd h ih
      | cons a as => simp [mHead]

lemma joinNl_cons (l : List Char) (ls : List (List Char)) (h : ls ≠ []) :
    joinNl (l :: ls) = l ++ '\n' :: joinNl ls := by
  cases ls with
  | nil => exact absurd rfl h
  | cons a as => rfl

lemma joinNl_append_single (B : List (List Char)) (x : List Char) :
    joinNl (B ++ [x]) = if B.isEmpty then x else joinNl B ++ '\n' :: x := by
  induction B with
  | nil => rfl
  | cons b B ih =>
    rw [List.cons_append, joinNl_cons b (B ++ [x]) (by simp)]
    cases B with
    | nil => simp [joinNl]
    | cons b' B' =>
      rw [ih]
      simp [joinNl_cons b (b' :: B') (by simp), List.append_assoc]

lemma transpileCore_decomp (cs : List Char) :
    transpileCore cs =
      "// Generated JavaScript".data ++ '\n' :: '\n' :: joinNl (bodyList cs ++ [['\x7d']]) := by
  rw [transpileCore, joinNl_cons _ _ (by simp), joinNl_cons _ _ (by simp)]
  rfl

/-- C8: transpile is total at the public boundary: every input string
(empty, malformed or otherwise) is mapped to a result string — a nonempty
one, since the header is always emitted.  Every partial operation of the
method body is guarded in the source (the only fallible step, the regex
match, is guarded by `if func_match:`; all slices are Python slices, which
never raise), so the embedding is a total function. -/
theorem C8_transpile_total :
    ∀ s : String, ∃ out : String, transpile s = out ∧ out ≠ "" := by
  intro s
  refine ⟨transpile s, rfl, ?_⟩
  intro h
  have h2 : (transpile s).data = [] := by rw [h]
  rw [show (transpile s).data = transpileCore s.data from rfl, transpileCore_decomp] at h2
  simp at h2

/-- C9: for every input string the output of transpile begins with the exact
line `// Generated JavaScript` followed by an empty line, and its final line
is a single closing brace, appended unconditionally — also for inputs that
open no block. -/
theorem C9_header_and_trailing_brace :
    ∀ s : String, ∃ mid : List Char,
      (transpile s).data = "// Generated JavaScript\n\n".data ++ mid ++ ['\x7d'] ∧
      (mid = [] ∨ ∃ m2 : List Char, mid = m2 ++ ['\n']) := by
  intro s
  have hd : (transpile s).data =
      "// Generated JavaScript".data ++ '\n' :: '\n' :: joinNl (bodyList s.data ++ [['\x7d']]) :=
    transpileCore_decomp s.data
  rw [joinNl_append_single] at hd
  by_cases hb : (bodyList s.data).isEmpty
  · refine ⟨[], ?_, Or.inl rfl⟩
    rw [hd, if_pos hb]
    rfl
  · refine ⟨joinNl (bodyList s.data) ++ ['\n'], ?_, Or.inr ⟨_, rfl⟩⟩
    rw [hd, if_neg hb]
    simp [List.append_assoc]

/-- C7 amended: a line whose stripped form consists only of a comment is not
discarded.  When the comment contains no `=` (so the assignment branch
cannot intercept it), the classifier emits for it the single JavaScript
comment line `// ` followed by the text after the `#`. -/
theorem C7_comment_line_emitted_as_js_comment :
    ∀ t : List Char, hasChar '=' t = false →
      processLine ('#' :: t) = ["// ".data ++ t] := by
  intro t h
  unfold processLine
  rw [show hasPrefixL "def ".data ('#' :: t) = false from rfl,
    show hasPrefixL "return ".data ('#' :: t) = false from rfl,
    show hasPrefixL "print(".data ('#' :: t) = false from rfl,
    show hasChar '=' ('#' :: t) = hasChar '=' t from rfl, h,
    show hasPrefixL "if ".data ('#' :: t) = false from rfl,
    show hasPrefixL "for ".data ('#' :: t) = false from rfl,
    show hasPrefixL "while ".data ('#' :: t) = false from rfl,
    show hasPrefixL "#".data ('#' :: t) = true from rfl]
  simp [show ("else:".data : List Char) = ['e', 'l', 's', 'e', ':'] from rfl]

/-- C7 amended, instantiated: the comment line `# hello` is emitted as the
JavaScript comment line `//  hello`. -/
theorem C7_comment_witness :
    hasChar '=' " hello".data = false ∧
      processLine ('#' :: " hello".data) = ["//  hello".data] :=
  ⟨by decide,
    (C7_comment_line_emitted_as_js_comment " hello".data (by decide)).trans (by decide)⟩

lemma mHead_append (f : List Char → List Char) (L M : List (List Char)) (h : L ≠ []) :
    mHead f (L ++ M) = mHead f L ++ M := by
  cases L with
  | nil => exact absurd rfl h
  | cons l ls => rfl

lemma mLast_cons (f : List Char → List Char) (l : List Char) (ls : List (List Char))
    (h : ls ≠ []) : mLast f (l :: ls) = l :: mLast f ls := by
  cases ls with
  | nil => exact absurd rfl h
  | cons a as => rfl

lemma mLast_append_single (f : List Char → List Char) (M : List (List Char)) (x : List Char) :
    mLast f (M ++ [x]) = M ++ [f x] := by
  induction M with
  | nil => rfl
  | cons m M ih =>
    rw [List.cons_append, mLast_cons f m (M ++ [x]) (by simp), ih, List.cons_append]

lemma mHead_mLast_comm (f g : List Char → List Char) (h : ∀ l, g (f l) = f (g l))
    (L : List (List Char)) : mHead g (mLast f L) = mLast f (mHead g L) := by
  cases L with
  | nil => rfl
  | cons l ls =>
    cases ls with
    | nil => simp [mHead, mLast, h l]
    | cons a as =>
      rw [mLast_cons f l (a :: as) (by simp)]
      show g l :: mLast f (a :: as) = mLast f (g l :: a :: as)
      rw [mLast_cons f (g l) (a :: as) (by simp)]

lemma splitNl_append_nl (ds : List Char) : splitNl (ds ++ ['\n']) = splitNl ds ++ [[]] := by
  induction ds with
  | nil => rfl
  | cons c ds ih =>
    rw [List.cons_append]
    simp only [splitNl]
    split
    · rw [ih]
      rfl
    · rw [ih, mHead_append _ _ _ (splitNl_ne_nil ds)]

lemma splitNl_append_ch (c : Char) (hc : ¬ c = '\n') (ds : List Char) :
    splitNl (ds ++ [c]) = mLast (fun l => l ++ [c]) (splitNl ds) := by
  induction ds with
  | nil => simp [splitNl, if_neg hc, mHead, mLast]
  | cons d ds ih =>
    rw [List.cons_append]
    simp only [splitNl]
    split
    · rw [ih, mLast_cons _ _ _ (splitNl_ne_nil ds)]
    · rw [ih, mHead_mLast_comm (fun l => l ++ [c]) (fun l => d :: l) (fun l => rfl)]

lemma map_reverse_mHead (c : Char) (S : List (List Char)) :
    (mHead (fun l => c :: l) S).map List.reverse =
      mHead (fun l => l ++ [c]) (S.map List.reverse) := by
  cases S with
  | nil => rfl
  | cons s S => simp [mHead, List.reverse_cons]

lemma reverse_mHead (f : List Char → List Char) (S : List (List Char)) :
    (mHead f S).reverse = mLast f S.reverse := by
  cases S with
  | nil => rfl
  | cons s S => simp [mHead, List.reverse_cons, mLast_append_single]

lemma splitNl_reverse (cs : List Char) :
    splitNl cs.reverse = ((splitNl cs).map List.reverse).reverse := by
  induction cs with
  | nil => rfl
  | cons c cs ih =>
    rw [List.reverse_cons]
    by_cases hc : c = '\n'
    · subst hc
      rw [splitNl_append_nl, ih]
      simp [splitNl]
    · rw [splitNl_append_ch c hc, ih,
        show splitNl (c :: cs) = mHead (fun l => c :: l) (splitNl cs) from by
          simp [splitNl, if_neg hc],
        map_reverse_mHead, reverse_mHead]

lemma dropWhile_append_eq (p : Char → Bool) (u v : List Char) :
    (u ++ v).dropWhile p =
      if (u.dropWhile p).isEmpty then v.dropWhile p else u.dropWhile p ++ v := by
  induction u with
  | nil => simp
  | cons a u ih =>
    by_cases hp : p a = true
    · rw [List.cons_append, List.dropWhile_cons_of_pos hp, ih, List.dropWhile_cons_of_pos hp]
    · rw [List.cons_append, List.dropWhile_cons_of_neg hp, List.dropWhile_cons_of_neg hp]
      simp

lemma dropWhile_append_of_all (p : Char → Bool) (u v : List Char)
    (h : ∀ a ∈ u, p a = true) : (u ++ v).dropWhile p = v.dropWhile p := by
  rw [dropWhile_append_eq]
  have hu : u.dropWhile p = [] := List.dropWhile_eq_nil_iff.mpr h
  rw [hu]
  rfl

lemma dropWhile_head_false (p : Char → Bool) (l : List Char) (c : Char) (t : List Char)
    (h : l.dropWhile p = c :: t) : p c = false := by
  induction l with
  | nil => simp [List.dropWhile] at h
  | cons a l ih =>
    by_cases hp : p a = true
    · rw [List.dropWhile_cons_of_pos hp] at h
      exact ih h
    · rw [List.dropWhile_cons_of_neg hp] at h
      cases h
      simpa using hp

lemma dw_rev_dw_rev (p : Char → Bool) (l : List Char) :
    (l.reverse.dropWhile p).reverse.dropWhile p =
      ((l.dropWhile p).reverse.dropWhile p).reverse := by
  cases ht : l.dropWhile p with
  | nil =>
    have hall : ∀ a ∈ l, p a = true := List.dropWhile_eq_nil_iff.mp ht
    have h2 : l.reverse.dropWhile p = [] :=
      List.dropWhile_eq_nil_iff.mpr (fun a ha => hall a (List.mem_reverse.mp ha))
    rw [h2]
    rfl
  | cons c t' =>
    have hpc : p c = false := dropWhile_head_false p l c t' ht
    have hl : l.takeWhile p ++ (c :: t') = l := by
      rw [← ht]
      exact List.takeWhile_append_dropWhile p l
    have hWp : ∀ a ∈ (l.takeWhile p).reverse, p a = true :=
      fun a ha => List.mem_takeWhile_imp (List.mem_reverse.mp ha)
    have hrl : l.reverse = (t'.reverse ++ [c]) ++ (l.takeWhile p).reverse := by
      conv_lhs => rw [← hl]
      rw [List.reverse_append, List.reverse_cons]
    obtain ⟨A, hA⟩ : ∃ A, (t'.reverse ++ [c]).dropWhile p = A ++ [c] := by
      rw [dropWhile_append_eq]
      by_cases he : (t'.reverse.dropWhile p).isEmpty = true
      · refine ⟨[], ?_⟩
        rw [if_pos he]
        simp [List.dropWhile_cons, hpc]
      · exact ⟨_, by rw [if_neg he]⟩
    have h1 : l.reverse.dropWhile p =
        (t'.reverse ++ [c]).dropWhile p ++ (l.takeWhile p).reverse := by
      rw [hrl, dropWhile_append_eq, if_neg (by rw [hA]; simp)]
    have h2 : (l.reverse.dropWhile p).reverse =
        l.takeWhile p ++ ((t'.reverse ++ [c]).dropWhile p).reverse := by
      rw [h1, List.reverse_append, List.reverse_reverse]
    have h3 : ((t'.reverse ++ [c]).dropWhile p).reverse.dropWhile p =
        ((t'.reverse ++ [c]).dropWhile p).reverse := by
      rw [hA, List.reverse_append]
      simp [List.dropWhile_cons, hpc]
    rw [h2, dropWhile_append_of_all p (l.takeWhile p) _
      (fun a ha => List.mem_takeWhile_imp ha), h3, List.reverse_cons]

lemma stripChars_reverse (l : List Char) :
    stripChars l.reverse = (stripChars l).reverse := by
  unfold stripChars
  rw [dw_rev_dw_rev]

/-- The per-line view the loop actually depends on: the stripped lines, with
blank lines removed (a blank stripped line matches no branch and emits
nothing). -/
def lineCore (S : List (List Char)) : List (List Char) :=
  (S.map stripChars).filter (fun l => !l.isEmpty)

lemma isEmpty_reverse (m : List Char) : m.reverse.isEmpty = m.isEmpty := by
  cases m with
  | nil => rfl
  | cons a as =>
    obtain ⟨b, bs, hb⟩ := List.exists_cons_of_ne_nil
      (show (a :: as : List Char).reverse ≠ [] by simp)
    rw [hb]
    rfl

lemma filter_map_rev_comm (S : List (List Char)) :
    ((S.map List.reverse).map stripChars).filter (fun l => !l.isEmpty) =
      ((S.map stripChars).filter (fun l => !l.isEmpty)).map List.reverse := by
  induction S with
  | nil => rfl
  | cons s S ih =>
    simp only [List.map_cons, List.filter_cons, stripChars_reverse, isEmpty_reverse]
    cases h : (stripChars s).isEmpty with
    | true => simpa [h] using ih
    | false => simpa [h] using ih

lemma lineCore_splitNl_reverse (xs : List Char) :
    lineCore (splitNl xs.reverse) = ((lineCore (splitNl xs)).map List.reverse).reverse := by
  rw [splitNl_reverse]
  unfold lineCore
  rw [List.map_reverse, List.filter_reverse, filter_map_rev_comm]

lemma strip_cons_space (c : Char) (hp : isPySpace c = true) (l : List Char) :
    stripChars (c :: l) = stripChars l := by
  unfold stripChars
  rw [List.dropWhile_cons_of_pos hp]

lemma lineCore_dropWhile (cs : List Char) :
    lineCore (splitNl (cs.dropWhile isPySpace)) = lineCore (splitNl cs) := by
  induction cs with
  | nil => rfl
  | cons c cs ih =>
    by_cases hp : isPySpace c = true
    · rw [List.dropWhile_cons_of_pos hp, ih]
      by_cases hn : c = '\n'
      · subst hn
        rw [show splitNl ('\n' :: cs) = [] :: splitNl cs from by simp [splitNl]]
        unfold lineCore
        rw [List.map_cons, show stripChars [] = [] from rfl]
        rfl
      · rw [show splitNl (c :: cs) = mHead (fun l => c :: l) (splitNl cs) from by
          simp [splitNl, if_neg hn]]
        obtain ⟨s, S, hS⟩ := List.exists_cons_of_ne_nil (splitNl_ne_nil cs)
        rw [hS]
        unfold lineCore mHead
        rw [List.map_cons, List.map_cons, strip_cons_space c hp s]
    · rw [List.dropWhile_cons_of_neg hp]

lemma lineCore_strip (cs : List Char) :
    lineCore (splitNl (stripChars cs)) = lineCore (splitNl cs) := by
  unfold stripChars
  rw [lineCore_splitNl_reverse ((cs.dropWhile isPySpace).reverse.dropWhile isPySpace),
    lineCore_dropWhile ((cs.dropWhile isPySpace).reverse),
    lineCore_splitNl_reverse (cs.dropWhile isPySpace),
    lineCore_dropWhile cs]
  simp [List.map_reverse, List.map_map, Function.comp]

lemma processLine_nil : processLine [] = [] := by decide

lemma catMap_strip_lineCore (S : List (List Char)) :
    catMap (fun l => processLine (stripChars l)) S = catMap processLine (lineCore S) := by
  induction S with
  | nil => rfl
  | cons s S ih =>
    show processLine (stripChars s) ++ catMap _ S = catMap processLine (lineCore (s :: S))
    unfold lineCore
    rw [List.map_cons, List.filter_cons]
    cases h : (stripChars s).isEmpty with
    | true =>
      rw [List.isEmpty_iff.mp h, processLine_nil]
      simpa using ih
    | false =>
      rw [show (!false) = true from rfl]
      show _ = processLine (stripChars s) ++ catMap processLine _
      rw [ih]
      rfl

lemma transpileCore_congr (cs cs' : List Char)
    (h : (splitNl cs).map stripChars = (splitNl cs').map stripChars) :
    transpileCore cs = transpileCore cs' := by
  unfold transpileCore bodyList
  rw [catMap_strip_lineCore, catMap_strip_lineCore, lineCore_strip, lineCore_strip]
  unfold lineCore
  rw [h]

/-- C10: transpile is invariant under per-line leading/trailing whitespace
changes: if two inputs have the same number of lines and the corresponding
lines agree after stripping leading and trailing whitespace (so the inputs
differ only in per-line edge whitespace, including all indentation), the
outputs are byte-identical — every line is stripped before classification. -/
theorem C10_whitespace_invariance :
    ∀ s t : String,
      (splitNl s.data).map stripChars = (splitNl t.data).map stripChars →
      transpile s = transpile t := by
  intro s t h
  unfold transpile
  rw [transpileCore_congr s.data t.data h]

/-- C10 witness: `  print( 1 )` and `print( 1 )\t` differ only in per-line
edge whitespace, and transpile maps them to the same output. -/
theorem C10_whitespace_invariance_witness :
    ((splitNl "  print( 1 )".data).map stripChars =
      (splitNl "print( 1 )\t".data).map stripChars) ∧
    transpile "  print( 1 )" = transpile "print( 1 )\t" :=
  ⟨by decide, C10_whitespace_invariance "  print( 1 )" "print( 1 )\t" (by decide)⟩
